import Mathlib

/-!
Shallow embedding of the rbittorrent client and theorems about its
behaviour: the peer-wire framing codec and its drive loop
(src/peer.rs), the bencode decoder (src/de.rs), the handshake record
(src/peer.rs) and the piece-download command (src/main.rs).

Byte buffers are modelled as `List Nat` (one element per byte), strings
as `List Char`; fallible operations return `Except`.
-/

namespace RBit


inductive MessageTag
  | choke | unchoke | interested | notInterested | have | bitfield | request | piece | cancel
deriving DecidableEq, Repr

def tagOfByte : Nat → Option MessageTag
  | 0 => some .choke
  | 1 => some .unchoke
  | 2 => some .interested
  | 3 => some .notInterested
  | 4 => some .have
  | 5 => some .bitfield
  | 6 => some .request
  | 7 => some .piece
  | 8 => some .cancel
  | _ => none

structure Message where
  tag : MessageTag
  payload : List Nat
deriving DecidableEq, Repr

def be32 (a b c d : Nat) : Nat := ((a * 256 + b) * 256 + c) * 256 + d

inductive FrameError
  | tooLarge (length : Nat)
  | badTag (tagByte : Nat)
deriving DecidableEq, Repr

def DECODE_MAX : Nat := 1 <<< 16

def decode : List Nat → Except FrameError (Option Message × List Nat)
  | a :: b :: c :: d :: rest =>
    let length := be32 a b c d
    if length = 0 then
      decode rest
    else if DECODE_MAX < length then
      .error (.tooLarge length)
    else if rest.length < 1 then
      .ok (none, a :: b :: c :: d :: rest)
    else if rest.length < length then
      .ok (none, a :: b :: c :: d :: rest)
    else
      match tagOfByte (rest.headD 0) with
      | none => .error (.badTag (rest.headD 0))
      | some t => .ok (some ⟨t, (rest.drop 1).take (length - 1)⟩, rest.drop length)
  | src => .ok (none, src)

instance {ε α : Type} [DecidableEq ε] [DecidableEq α] : DecidableEq (Except ε α)
  | .error e, .error f =>
    if h : e = f then .isTrue (by rw [h]) else .isFalse (by simp [h])
  | .error e, .ok b => .isFalse (by simp)
  | .ok a, .error f => .isFalse (by simp)
  | .ok a, .ok b =>
    if h : a = b then .isTrue (by rw [h]) else .isFalse (by simp [h])

/-- The driver loop of `tokio_util::codec::Framed` over `MessageFramer::decode`:
repeatedly decode frames from the buffer, collecting the decoded messages,
until the codec asks for more data or fails.  `fuel` bounds the number of
decoded frames; `drain` supplies enough fuel for any buffer. -/
def drainF : Nat → List Nat → List Message × Except FrameError (List Nat)
  | 0, src => ([], .ok src)
  | fuel + 1, src =>
    match decode src with
    | .error e => ([], .error e)
    | .ok (none, rest) => ([], .ok rest)
    | .ok (some m, rest) =>
      let p := drainF fuel rest
      (m :: p.1, p.2)

/-- Decode every complete frame buffered in `src`: the list of decoded
messages together with either the leftover buffer or the fatal error. -/
def drain (src : List Nat) : List Message × Except FrameError (List Nat) :=
  drainF (src.length + 1) src

/-- Feeding buffered chunks one at a time: each chunk is appended to the
leftover bytes and drained; messages accumulate across chunks and a fatal
error stops the session. -/
def processChunks : List Nat → List (List Nat) → List Message × Except FrameError (List Nat)
  | st, [] => ([], .ok st)
  | st, c :: cs =>
    match drain (st ++ c) with
    | (ms, .error e) => (ms, .error e)
    | (ms, .ok rest) =>
      let p := processChunks rest cs
      (ms ++ p.1, p.2)

/-- The constant `PIECE_BLOCK_MAX: usize = 1 << 14` of src/main.rs. -/
def PIECE_BLOCK_MAX : Nat := 1 <<< 14

/-- Piece size computation of src/main.rs lines 183-192: the last piece
gets the remainder of the total length, except that a zero remainder means
a full piece. -/
def pieceSize (totalLength plength npieces pieceIndex : Nat) : Nat :=
  if pieceIndex = npieces - 1 then
    let rem := totalLength % plength
    if rem = 0 then plength else rem
  else plength

/-- The `nblocks` computation of src/main.rs line 195: `piece_size / PIECE_BLOCK_MAX`
rounded up. -/
def nblocks (piece_size : Nat) : Nat :=
  (piece_size + (PIECE_BLOCK_MAX - 1)) / PIECE_BLOCK_MAX

/-- Block size computation of src/main.rs lines 199-208: full blocks of
`PIECE_BLOCK_MAX` except the final one, which gets the remainder (or a
full block when the remainder is zero). -/
def blockSize (piece_size block_idx : Nat) : Nat :=
  if block_idx = nblocks piece_size - 1 then
    let rem := piece_size % PIECE_BLOCK_MAX
    if rem = 0 then PIECE_BLOCK_MAX else rem
  else PIECE_BLOCK_MAX

/-- The block sizes requested by the loop of src/main.rs lines 198-254, in
iteration order. -/
def blockSizes (piece_size : Nat) : List Nat :=
  (List.range (nblocks piece_size)).map (blockSize piece_size)

/-- A bencode value (`serde_bencode::value::Value`).  The source stores
dictionary entries in a `std::collections::HashMap`; here the entries are
kept as a list in parse order so that order-dependent properties can be
stated at all. -/
inductive BValue
  | int (v : Int)
  | bytes (s : List Char)
  | list (l : List BValue)
  | dict (d : List (List Char × BValue))

/-- The distinct error paths of src/de.rs (`anyhow` errors in the source). -/
inductive BErr
  | exhausted
  | invalidChar
  | noColon
  | lenParse
  | lenOverflow
  | noIntStart
  | noTerminator
  | negZero
  | intParse
  | leadingZero
  | keyNotString
  | trailing
  | fuel
deriving DecidableEq, Repr

/-- Rust `str::split_once(c)`: the part before the first occurrence of `c` and
the part after it, or `none` when `c` does not occur. -/
def splitOnce (c : Char) : List Char → Option (List Char × List Char)
  | [] => none
  | a :: t =>
    if a = c then some ([], t)
    else
      match splitOnce c t with
      | none => none
      | some (p, q) => some (a :: p, q)

/-- Numeric value of a digit list, most significant first. -/
def digitsVal (ds : List Char) : Nat :=
  ds.foldl (fun a c => a * 10 + (c.toNat - 48)) 0

/-- Rust `str::parse::<i64>()`: an optional sign, then one or more ASCII
digits, value within the `i64` range. -/
def parseI64 (s : List Char) : Option Int :=
  let (neg, ds) : Bool × List Char :=
    match s with
    | '-' :: t => (true, t)
    | '+' :: t => (false, t)
    | t => (false, t)
  if ds = [] then none
  else if ¬ ds.all (fun c => c.isDigit) then none
  else
    let v : Int := if neg then - (digitsVal ds : Int) else (digitsVal ds : Int)
    if v < - (2 ^ 63) then none
    else if 2 ^ 63 - 1 < v then none
    else some v

/-- Rust `str::parse::<usize>()`: an optional plus sign, then one or more
ASCII digits, value within the `usize` (64-bit) range. -/
def parseUsize (s : List Char) : Option Nat :=
  let ds : List Char :=
    match s with
    | '+' :: t => t
    | t => t
  if ds = [] then none
  else if ¬ ds.all (fun c => c.isDigit) then none
  else if 2 ^ 64 - 1 < digitsVal ds then none
  else some (digitsVal ds)

/-- The sign-stripping step of src/de.rs line 115: the digit part of an
integer literal, with a leading minus removed. -/
def intDigits : List Char → List Char
  | '-' :: t => t
  | l => l

/-- Embedding of `decode_bencoded_int` (src/de.rs lines 99-121): strip the leading
`i`, split at the first `e`, reject a `-0` start, parse as `i64`, then
reject a leading zero when the parsed value is nonzero. -/
def decode_bencoded_int (s : List Char) : Except BErr (BValue × List Char) :=
  match s with
  | 'i' :: t =>
    match splitOnce 'e' t with
    | none => .error .noTerminator
    | some (intStr, rest) =>
      if intStr.take 2 = ['-', '0'] then .error .negZero
      else
        match parseI64 intStr with
        | none => .error .intParse
        | some v =>
          if (intDigits intStr).head? = some '0' ∧ v ≠ 0 then .error .leadingZero
          else .ok (.int v, rest)
  | _ => .error .noIntStart

/-- Embedding of `decode_bencoded_string` (src/de.rs lines 72-94): split at the first
colon, parse the length as `usize`, require at least that many remaining
characters. -/
def decode_bencoded_string (s : List Char) : Except BErr (BValue × List Char) :=
  match splitOnce ':' s with
  | none => .error .noColon
  | some (lenStr, rest) =>
    match parseUsize lenStr with
    | none => .error .lenParse
    | some len =>
      if rest.length < len then .error .lenOverflow
      else .ok (.bytes (rest.take len), rest.drop len)

mutual
/-- Embedding of `decode_bencoded_value` (src/de.rs lines 21-69), with explicit fuel
for the list/dictionary recursion.  Dictionary entries are collected in
parse order (the source inserts them into a `HashMap`). -/
def decode_bencoded_value : Nat → List Char → Except BErr (BValue × List Char)
  | 0, _ => .error .fuel
  | _ + 1, [] => .error .exhausted
  | fuel + 1, c :: t =>
    if c = 'i' then decode_bencoded_int (c :: t)
    else if c.isDigit then decode_bencoded_string (c :: t)
    else if c = 'l' then
      match decodeItems fuel t with
      | .error e => .error e
      | .ok (vs, r) => .ok (.list vs, r)
    else if c = 'd' then
      match decodePairs fuel t with
      | .error e => .error e
      | .ok (ps, r) => .ok (.dict ps, r)
    else .error .invalidChar

/-- The element loop of the `'l'` branch: decode values until the next
character is the terminator `e`, then consume it. -/
def decodeItems : Nat → List Char → Except BErr (List BValue × List Char)
  | 0, _ => .error .fuel
  | fuel + 1, s =>
    if s.head? = some 'e' then .ok ([], s.tail)
    else
      match decode_bencoded_value fuel s with
      | .error e => .error e
      | .ok (v, r) =>
        match decodeItems fuel r with
        | .error e => .error e
        | .ok (vs, r2) => .ok (v :: vs, r2)

/-- The pair loop of the `'d'` branch: decode a key (which must be a byte
string) and a value until the terminator `e`, then consume it. -/
def decodePairs : Nat → List Char → Except BErr (List (List Char × BValue) × List Char)
  | 0, _ => .error .fuel
  | fuel + 1, s =>
    if s.head? = some 'e' then .ok ([], s.tail)
    else
      match decode_bencoded_value fuel s with
      | .error e => .error e
      | .ok (.bytes key, r) =>
        match decode_bencoded_value fuel r with
        | .error e => .error e
        | .ok (v, r2) =>
          match decodePairs fuel r2 with
          | .error e => .error e
          | .ok (ps, r3) => .ok ((key, v) :: ps, r3)
      | .ok (_, _) => .error .keyNotString
end

/-- Embedding of `decode_cmd` (src/de.rs lines 5-12): decode one value and fail when
input remains. -/
def decode_cmd (s : List Char) : Except BErr BValue :=
  match decode_bencoded_value (s.length + 1) s with
  | .error e => .error e
  | .ok (v, []) => .ok v
  | .ok (_, _ :: _) => .error .trailing

mutual
/-- Modelled from the spec: the bencode encoder (`serde_bencode`
serialization, spec section 4.1) is not part of src/.  Integers become
`i<value>e`, byte strings `<len>:<bytes>`, lists and dictionaries are
bracketed by `l`/`d` and `e`, and dictionary keys are emitted in the
stored order. -/
def encodeBValue : BValue → List Char
  | .int v => 'i' :: v.repr.toList ++ ['e']
  | .bytes s => (Nat.repr s.length).toList ++ ':' :: s
  | .list l => 'l' :: encodeBList l ++ ['e']
  | .dict d => 'd' :: encodeBPairs d ++ ['e']

/-- Modelled from the spec: encoding of a list of values, in order. -/
def encodeBList : List BValue → List Char
  | [] => []
  | v :: vs => encodeBValue v ++ encodeBList vs

/-- Modelled from the spec: encoding of dictionary entries, in stored
order, each as byte-string key then value. -/
def encodeBPairs : List (List Char × BValue) → List Char
  | [] => []
  | (k, v) :: ps => (Nat.repr k.length).toList ++ ':' :: k ++ encodeBValue v ++ encodeBPairs ps
end

/-- The fixed 68-byte handshake record (`Handshake` in src/peer.rs). -/
structure Handshake where
  length : Nat
  bittorrent : List Nat
  reserved : List Nat
  info_hash : List Nat
  peer_id : List Nat
deriving DecidableEq, Repr

/-- The byte values of the protocol-name literal `b"BitTorrent protocol"`. -/
def protocolBytes : List Nat := ("BitTorrent protocol".toList).map Char.toNat

/-- Embedding of `Handshake::new` (src/peer.rs lines 127-135). -/
def Handshake.new (info_hash peer_id : List Nat) : Handshake :=
  { length := 19
    bittorrent := protocolBytes
    reserved := List.replicate 8 0
    info_hash := info_hash
    peer_id := peer_id }

/-- How a step of the download aborts: `panicked` models an
`assert!`/`assert_eq!`/`expect` failure (a process panic), `failure`
models an error value propagated with `?` to the caller. -/
inductive Abort
  | panicked
  | failure
deriving DecidableEq, Repr

/-- One item pulled from the framed message stream: either a decoded
message or a stream-level decode error. -/
inductive StreamItem
  | msg (m : Message)
  | ioErr
deriving DecidableEq, Repr

/-- The handshake validation of src/main.rs lines 156-158: three
`assert_eq!` checks on the echoed record (length byte, protocol literal,
info-hash versus the locally computed one). -/
def checkHandshake (h : Handshake) (localHash : List Nat) : Except Abort Unit :=
  if h.length ≠ 19 then .error .panicked
  else if h.bittorrent ≠ protocolBytes then .error .panicked
  else if h.info_hash ≠ localHash then .error .panicked
  else .ok ()

/-- The block-request loop of src/main.rs lines 198-254.  `idxs` is the
list of remaining block indices, `msgs` the scripted replies of the peer.
Returns the `(index, begin, length)` requests sent (fields cast to `u32`)
together with either the accumulated piece bytes or the abort. -/
def downloadBlocks (piece_index piece_size : Nat) :
    List Nat → List StreamItem → List Nat → List (Nat × Nat × Nat) × Except Abort (List Nat)
  | [], _, acc =>
    if acc.length = piece_size then ([], .ok acc) else ([], .error .panicked)
  | i :: restIdxs, msgs, acc =>
    let bsize := blockSize piece_size i
    let req : Nat × Nat × Nat :=
      (piece_index % 2 ^ 32, i * PIECE_BLOCK_MAX % 2 ^ 32, bsize % 2 ^ 32)
    match msgs with
    | [] => ([req], .error .panicked)
    | .ioErr :: _ => ([req], .error .failure)
    | .msg m :: restMsgs =>
      if m.tag ≠ MessageTag.piece then ([req], .error .panicked)
      else if m.payload.length = 0 then ([req], .error .panicked)
      else if m.payload.length < 8 then ([req], .error .panicked)
      else
        let idx := be32 (m.payload.getD 0 0) (m.payload.getD 1 0)
          (m.payload.getD 2 0) (m.payload.getD 3 0)
        let beg := be32 (m.payload.getD 4 0) (m.payload.getD 5 0)
          (m.payload.getD 6 0) (m.payload.getD 7 0)
        let block := m.payload.drop 8
        if idx ≠ piece_index then ([req], .error .panicked)
        else if beg ≠ i * PIECE_BLOCK_MAX then ([req], .error .panicked)
        else if block.length ≠ bsize then ([req], .error .panicked)
        else
          let p := downloadBlocks piece_index piece_size restIdxs restMsgs (acc ++ block)
          (req :: p.1, p.2)

/-- The `DownloadPiece` command of src/main.rs after the tracker exchange:
the piece-index bound check, the handshake validation, the bitfield and
unchoke steps, then the block-request loop. -/
def downloadPieceSession (localHash : List Nat) (h : Handshake)
    (msgs : List StreamItem) (piece_index totalLength plength npieces : Nat) :
    List (Nat × Nat × Nat) × Except Abort (List Nat) :=
  if npieces ≤ piece_index then ([], .error .panicked)
  else
    match checkHandshake h localHash with
    | .error a => ([], .error a)
    | .ok _ =>
      match msgs with
      | [] => ([], .error .panicked)
      | .ioErr :: _ => ([], .error .failure)
      | .msg bf :: rest1 =>
        if bf.tag ≠ MessageTag.bitfield then ([], .error .panicked)
        else
          match rest1 with
          | [] => ([], .error .panicked)
          | .ioErr :: _ => ([], .error .failure)
          | .msg uc :: rest2 =>
            if uc.tag ≠ MessageTag.unchoke then ([], .error .panicked)
            else if uc.payload ≠ [] then ([], .error .panicked)
            else
              let psize := pieceSize totalLength plength npieces piece_index
              downloadBlocks piece_index psize (List.range (nblocks psize)) rest2 []

def MessageTag.toByte : MessageTag → Nat
  | .choke => 0
  | .unchoke => 1
  | .interested => 2
  | .notInterested => 3
  | .have => 4
  | .bitfield => 5
  | .request => 6
  | .piece => 7
  | .cancel => 8

def ENCODE_MAX : Nat := 8 * 1024 * 1024

def Message.len (m : Message) : Nat := 1 + m.payload.length

def u32be (n : Nat) : List Nat :=
  [n / 2 ^ 24 % 256, n / 2 ^ 16 % 256, n / 2 ^ 8 % 256, n % 256]

def encode (m : Message) : Except FrameError (List Nat) :=
  if ENCODE_MAX < m.len then .error (.tooLarge m.len)
  else .ok (u32be m.len ++ m.tag.toByte :: m.payload)

lemma decode_keepalive (a b c d : Nat) (rest : List Nat) (h : be32 a b c d = 0) :
    decode (a :: b :: c :: d :: rest) = decode rest := by
  simp [decode, h]

lemma decode_toolarge (a b c d : Nat) (rest : List Nat) (h0 : be32 a b c d ≠ 0)
    (h1 : DECODE_MAX < be32 a b c d) :
    decode (a :: b :: c :: d :: rest) = .error (.tooLarge (be32 a b c d)) := by
  simp [decode, h0, h1]

lemma decode_incomplete (a b c d : Nat) (rest : List Nat) (h0 : be32 a b c d ≠ 0)
    (h1 : ¬ DECODE_MAX < be32 a b c d) (h2 : rest.length < be32 a b c d) :
    decode (a :: b :: c :: d :: rest) = .ok (none, a :: b :: c :: d :: rest) := by
  by_cases h3 : rest.length < 1 <;> simp [decode, h0, h1, h2, h3]

lemma decode_frame (a b c d : Nat) (rest : List Nat) (h0 : be32 a b c d ≠ 0)
    (h1 : ¬ DECODE_MAX < be32 a b c d) (h2 : ¬ rest.length < be32 a b c d) :
    decode (a :: b :: c :: d :: rest) =
      match tagOfByte (rest.headD 0) with
      | none => .error (.badTag (rest.headD 0))
      | some t => .ok (some ⟨t, (rest.drop 1).take (be32 a b c d - 1)⟩,
          rest.drop (be32 a b c d)) := by
  have h3 : ¬ rest.length < 1 := by omega
  simp [decode, h0, h1, h2, h3]

lemma decode_frame_none (a b c d : Nat) (rest : List Nat) (h0 : be32 a b c d ≠ 0)
    (h1 : ¬ DECODE_MAX < be32 a b c d) (h2 : ¬ rest.length < be32 a b c d)
    (htag : tagOfByte (rest.headD 0) = none) :
    decode (a :: b :: c :: d :: rest) = .error (.badTag (rest.headD 0)) := by
  rw [decode_frame a b c d rest h0 h1 h2, htag]

lemma decode_frame_some (a b c d : Nat) (rest : List Nat) (t : MessageTag)
    (h0 : be32 a b c d ≠ 0) (h1 : ¬ DECODE_MAX < be32 a b c d)
    (h2 : ¬ rest.length < be32 a b c d) (htag : tagOfByte (rest.headD 0) = some t) :
    decode (a :: b :: c :: d :: rest)
      = .ok (some ⟨t, (rest.drop 1).take (be32 a b c d - 1)⟩,
          rest.drop (be32 a b c d)) := by
  rw [decode_frame a b c d rest h0 h1 h2, htag]

lemma decode_short (src : List Nat) (h : src.length < 4) : decode src = .ok (none, src) := by
  rcases src with _ | ⟨a, _ | ⟨b, _ | ⟨c, _ | ⟨d, t⟩⟩⟩⟩
  · rfl
  · rfl
  · rfl
  · rfl
  · simp only [List.length_cons] at h; omega

lemma decode_some_length : ∀ (src : List Nat) (m : Message) (rest : List Nat),
    decode src = .ok (some m, rest) → rest.length < src.length := by
  intro src
  induction src using decode.induct with
  | case1 a b c d rest L hL ih =>
    have h : be32 a b c d = 0 := hL
    intro m r hd
    rw [decode_keepalive a b c d rest h] at hd
    have := ih m r hd
    simp only [List.length_cons]
    omega
  | case2 a b c d rest L hL0 hL1 =>
    have h0 : be32 a b c d ≠ 0 := hL0
    have h1 : DECODE_MAX < be32 a b c d := hL1
    intro m r hd
    rw [decode_toolarge a b c d rest h0 h1] at hd
    simp at hd
  | case3 a b c d rest L hL0 hL1 hL3 =>
    have h0 : be32 a b c d ≠ 0 := hL0
    have h3 : rest.length < 1 := hL3
    intro m r hd
    have h2 : rest.length < be32 a b c d := by
      rcases Nat.pos_of_ne_zero h0 with h
      omega
    rw [decode_incomplete a b c d rest h0 (fun hx => hL1 hx) h2] at hd
    simp at hd
  | case4 a b c d rest L hL0 hL1 hL3 hL2 =>
    have h0 : be32 a b c d ≠ 0 := hL0
    have h2 : rest.length < be32 a b c d := hL2
    intro m r hd
    rw [decode_incomplete a b c d rest h0 (fun hx => hL1 hx) h2] at hd
    simp at hd
  | case5 a b c d rest L hL0 hL1 hL3 hL2 htag =>
    have h0 : be32 a b c d ≠ 0 := hL0
    have h2 : ¬ rest.length < be32 a b c d := hL2
    intro m r hd
    rw [decode_frame a b c d rest h0 (fun hx => hL1 hx) h2, htag] at hd
    simp at hd
  | case6 a b c d rest L hL0 hL1 hL3 hL2 t htag =>
    have h0 : be32 a b c d ≠ 0 := hL0
    have h2 : ¬ rest.length < be32 a b c d := hL2
    intro m r hd
    rw [decode_frame a b c d rest h0 (fun hx => hL1 hx) h2, htag] at hd
    simp only [Except.ok.injEq, Prod.mk.injEq, Option.some.injEq] at hd
    obtain ⟨-, hr⟩ := hd
    subst hr
    simp only [List.length_drop, List.length_cons]
    omega
  | case7 src hne =>
    intro m r hd
    rcases src with _ | ⟨a, _ | ⟨b, _ | ⟨c, _ | ⟨d, t⟩⟩⟩⟩
    · simp [decode] at hd
    · simp [decode] at hd
    · simp [decode] at hd
    · simp [decode] at hd
    · exact (hne a b c d t rfl).elim

lemma decode_append (ext : List Nat) : ∀ (buf : List Nat),
    (∀ e, decode buf = .error e → decode (buf ++ ext) = .error e) ∧
    (∀ rest, decode buf = .ok (none, rest) → decode (buf ++ ext) = decode (rest ++ ext)) ∧
    (∀ m rest, decode buf = .ok (some m, rest) →
      decode (buf ++ ext) = .ok (some m, rest ++ ext)) := by
  intro buf
  induction buf using decode.induct with
  | case1 a b c d rest L hL ih =>
    have h : be32 a b c d = 0 := hL
    have hb : decode (a :: b :: c :: d :: rest) = decode rest :=
      decode_keepalive a b c d rest h
    have hb2 : decode ((a :: b :: c :: d :: rest) ++ ext) = decode (rest ++ ext) := by
      simpa using decode_keepalive a b c d (rest ++ ext) h
    refine ⟨?_, ?_, ?_⟩
    · intro e hd; rw [hb] at hd; rw [hb2]; exact ih.1 e hd
    · intro r hd; rw [hb] at hd; rw [hb2]; exact ih.2.1 r hd
    · intro m r hd; rw [hb] at hd; rw [hb2]; exact ih.2.2 m r hd
  | case2 a b c d rest L hL0 hL1 =>
    have h0 : be32 a b c d ≠ 0 := hL0
    have h1 : DECODE_MAX < be32 a b c d := hL1
    have hb := decode_toolarge a b c d rest h0 h1
    have hb2 : decode ((a :: b :: c :: d :: rest) ++ ext)
        = .error (.tooLarge (be32 a b c d)) := by
      simpa using decode_toolarge a b c d (rest ++ ext) h0 h1
    refine ⟨?_, ?_, ?_⟩
    · intro e hd; rw [hb] at hd; injection hd with he; rw [he] at hb2; exact hb2
    · intro r hd; rw [hb] at hd; simp at hd
    · intro m r hd; rw [hb] at hd; simp at hd
  | case3 a b c d rest L hL0 hL1 hL3 =>
    have h0 : be32 a b c d ≠ 0 := hL0
    have h3 : rest.length < 1 := hL3
    have h2 : rest.length < be32 a b c d := by
      rcases Nat.pos_of_ne_zero h0 with h
      omega
    have hb := decode_incomplete a b c d rest h0 (fun hx => hL1 hx) h2
    refine ⟨?_, ?_, ?_⟩
    · intro e hd; rw [hb] at hd; simp at hd
    · intro r hd; rw [hb] at hd
      simp only [Except.ok.injEq, Prod.mk.injEq] at hd
      rw [← hd.2]
    · intro m r hd; rw [hb] at hd; simp at hd
  | case4 a b c d rest L hL0 hL1 hL3 hL2 =>
    have h0 : be32 a b c d ≠ 0 := hL0
    have h2 : rest.length < be32 a b c d := hL2
    have hb := decode_incomplete a b c d rest h0 (fun hx => hL1 hx) h2
    refine ⟨?_, ?_, ?_⟩
    · intro e hd; rw [hb] at hd; simp at hd
    · intro r hd; rw [hb] at hd
      simp only [Except.ok.injEq, Prod.mk.injEq] at hd
      rw [← hd.2]
    · intro m r hd; rw [hb] at hd; simp at hd
  | case5 a b c d rest L hL0 hL1 hL3 hL2 htag =>
    have h0 : be32 a b c d ≠ 0 := hL0
    have h2 : ¬ rest.length < be32 a b c d := hL2
    have h3 : ¬ rest.length < 1 := hL3
    have htg : tagOfByte (rest.headD 0) = none := htag
    rcases rest with _ | ⟨x, xs⟩
    · simp at h3
    have hb := decode_frame_none a b c d (x :: xs) h0 (fun hx => hL1 hx) h2 htg
    have h2e : ¬ (x :: (xs ++ ext)).length < be32 a b c d := by
      simp only [List.length_cons, List.length_append] at h2 ⊢
      omega
    have htagE : tagOfByte ((x :: (xs ++ ext)).headD 0) = none := htg
    have hbe := decode_frame_none a b c d (x :: (xs ++ ext)) h0 (fun hx => hL1 hx) h2e htagE
    refine ⟨?_, ?_, ?_⟩
    · intro e hd
      rw [hb] at hd
      injection hd with he
      simp only [List.cons_append]
      rw [hbe]
      rw [← he]
      rfl
    · intro r hd; rw [hb] at hd; simp at hd
    · intro m r hd; rw [hb] at hd; simp at hd
  | case6 a b c d rest L hL0 hL1 hL3 hL2 t htag =>
    have h0 : be32 a b c d ≠ 0 := hL0
    have h2 : ¬ rest.length < be32 a b c d := hL2
    have h3 : ¬ rest.length < 1 := hL3
    have htg : tagOfByte (rest.headD 0) = some t := htag
    rcases rest with _ | ⟨x, xs⟩
    · simp at h3
    have hb := decode_frame_some a b c d (x :: xs) t h0 (fun hx => hL1 hx) h2 htg
    have h2e : ¬ (x :: (xs ++ ext)).length < be32 a b c d := by
      simp only [List.length_cons, List.length_append] at h2 ⊢
      omega
    have htagE : tagOfByte ((x :: (xs ++ ext)).headD 0) = some t := htg
    have hbe := decode_frame_some a b c d (x :: (xs ++ ext)) t h0 (fun hx => hL1 hx) h2e htagE
    have hlen : be32 a b c d - 1 ≤ xs.length := by
      simp only [List.length_cons] at h2
      omega
    have htake : (xs ++ ext).take (be32 a b c d - 1) = xs.take (be32 a b c d - 1) :=
      List.take_append_of_le_length hlen
    have hdropL : (x :: (xs ++ ext)).drop (be32 a b c d)
        = (x :: xs).drop (be32 a b c d) ++ ext := by
      have hle : be32 a b c d ≤ (x :: xs).length := by
        simp only [List.length_cons] at h2 ⊢
        omega
      have h5 := @List.drop_append_of_le_length Nat (x :: xs) ext (be32 a b c d) hle
      simpa using h5
    refine ⟨?_, ?_, ?_⟩
    · intro e hd; rw [hb] at hd; simp at hd
    · intro r hd; rw [hb] at hd; simp at hd
    · intro m r hd
      rw [hb] at hd
      simp only [Except.ok.injEq, Prod.mk.injEq, Option.some.injEq] at hd
      obtain ⟨hm, hr⟩ := hd
      simp only [List.cons_append]
      rw [hbe]
      simp only [List.drop_succ_cons, List.drop_zero] at hbe ⊢
      rw [htake, hdropL, ← hr, ← hm]
      rfl
  | case7 src hne =>
    have hlt : src.length < 4 := by
      rcases src with _ | ⟨a, _ | ⟨b, _ | ⟨c, _ | ⟨d, t⟩⟩⟩⟩
      · simp
      · simp
      · simp
      · simp
      · exact (hne a b c d t rfl).elim
    have hb := decode_short src hlt
    refine ⟨?_, ?_, ?_⟩
    · intro e hd; rw [hb] at hd; simp at hd
    · intro r hd; rw [hb] at hd
      simp only [Except.ok.injEq, Prod.mk.injEq] at hd
      rw [← hd.2]
    · intro m r hd; rw [hb] at hd; simp at hd

lemma decode_none_quiescent : ∀ (buf : List Nat) (rest : List Nat),
    decode buf = .ok (none, rest) → decode rest = .ok (none, rest) := by
  intro buf
  induction buf using decode.induct with
  | case1 a b c d rest L hL ih =>
    have h : be32 a b c d = 0 := hL
    intro r hd
    rw [decode_keepalive a b c d rest h] at hd
    exact ih r hd
  | case2 a b c d rest L hL0 hL1 =>
    have h0 : be32 a b c d ≠ 0 := hL0
    have h1 : DECODE_MAX < be32 a b c d := hL1
    intro r hd
    rw [decode_toolarge a b c d rest h0 h1] at hd
    simp at hd
  | case3 a b c d rest L hL0 hL1 hL3 =>
    have h0 : be32 a b c d ≠ 0 := hL0
    have h3 : rest.length < 1 := hL3
    intro r hd
    have h2 : rest.length < be32 a b c d := by
      rcases Nat.pos_of_ne_zero h0 with h
      omega
    rw [decode_incomplete a b c d rest h0 (fun hx => hL1 hx) h2] at hd
    simp only [Except.ok.injEq, Prod.mk.injEq] at hd
    rw [← hd.2]
    exact decode_incomplete a b c d rest h0 (fun hx => hL1 hx) h2
  | case4 a b c d rest L hL0 hL1 hL3 hL2 =>
    have h0 : be32 a b c d ≠ 0 := hL0
    have h2 : rest.length < be32 a b c d := hL2
    intro r hd
    rw [decode_incomplete a b c d rest h0 (fun hx => hL1 hx) h2] at hd
    simp only [Except.ok.injEq, Prod.mk.injEq] at hd
    rw [← hd.2]
    exact decode_incomplete a b c d rest h0 (fun hx => hL1 hx) h2
  | case5 a b c d rest L hL0 hL1 hL3 hL2 htag =>
    have h0 : be32 a b c d ≠ 0 := hL0
    have h2 : ¬ rest.length < be32 a b c d := hL2
    have htg : tagOfByte (rest.headD 0) = none := htag
    intro r hd
    rw [decode_frame a b c d rest h0 (fun hx => hL1 hx) h2, htg] at hd
    simp at hd
  | case6 a b c d rest L hL0 hL1 hL3 hL2 t htag =>
    have h0 : be32 a b c d ≠ 0 := hL0
    have h2 : ¬ rest.length < be32 a b c d := hL2
    have htg : tagOfByte (rest.headD 0) = some t := htag
    intro r hd
    rw [decode_frame a b c d rest h0 (fun hx => hL1 hx) h2, htg] at hd
    simp at hd
  | case7 src hne =>
    intro r hd
    have hlt : src.length < 4 := by
      rcases src with _ | ⟨a, _ | ⟨b, _ | ⟨c, _ | ⟨d, t⟩⟩⟩⟩
      · simp
      · simp
      · simp
      · simp
      · exact (hne a b c d t rfl).elim
    rw [decode_short src hlt] at hd
    simp only [Except.ok.injEq, Prod.mk.injEq] at hd
    rw [← hd.2]
    exact decode_short src hlt

lemma drainF_congr : ∀ (f1 f2 : Nat) (src : List Nat),
    src.length < f1 → src.length < f2 → drainF f1 src = drainF f2 src := by
  intro f1
  induction f1 with
  | zero => intro f2 src h1 h2; omega
  | succ g ih =>
    intro f2 src h1 h2
    rcases f2 with _ | g2
    · omega
    simp only [drainF]
    cases hdec : decode src with
    | error e => rfl
    | ok p =>
      rcases p with ⟨mo, rest⟩
      rcases mo with _ | m
      · rfl
      · have hlt := decode_some_length src m rest hdec
        have := ih g2 rest (by omega) (by omega)
        simp only [this]

lemma drain_error {src : List Nat} {e : FrameError} (h : decode src = .error e) :
    drain src = ([], .error e) := by
  simp only [drain, drainF, h]

lemma drain_none {src rest : List Nat} (h : decode src = .ok (none, rest)) :
    drain src = ([], .ok rest) := by
  simp only [drain, drainF, h]

lemma drainF_some_step (fuel : Nat) {src rest : List Nat} {m : Message}
    (h : decode src = .ok (some m, rest)) :
    drainF (fuel + 1) src = (m :: (drainF fuel rest).1, (drainF fuel rest).2) := by
  simp only [drainF, h]

lemma drain_some {src rest : List Nat} {m : Message}
    (h : decode src = .ok (some m, rest)) :
    drain src = (m :: (drain rest).1, (drain rest).2) := by
  have hlt := decode_some_length src m rest h
  show drainF (src.length + 1) src = _
  rw [drainF_some_step src.length h,
    drainF_congr src.length (rest.length + 1) rest (by omega) (Nat.lt_succ_self rest.length)]
  rfl

lemma drain_congr {x y : List Nat} (h : decode x = decode y) : drain x = drain y := by
  cases hdec : decode x with
  | error e => rw [drain_error hdec, drain_error (h.symm.trans hdec)]
  | ok p =>
    rcases p with ⟨mo, rest⟩
    rcases mo with _ | m
    · rw [drain_none hdec, drain_none (h.symm.trans hdec)]
    · rw [drain_some hdec, drain_some (h.symm.trans hdec)]

/-- Appending bytes to a buffer extends the drained result: the messages
already decodable from `buf` come first, and the leftover combines with
`ext` for the remainder. -/
lemma drain_append : ∀ (buf ext : List Nat),
    drain (buf ++ ext) =
      match drain buf with
      | (ms, .error e) => (ms, .error e)
      | (ms, .ok rest) => (ms ++ (drain (rest ++ ext)).1, (drain (rest ++ ext)).2) := by
  have H : ∀ (n : Nat) (buf ext : List Nat), buf.length ≤ n →
      drain (buf ++ ext) =
        match drain buf with
        | (ms, .error e) => (ms, .error e)
        | (ms, .ok rest) => (ms ++ (drain (rest ++ ext)).1, (drain (rest ++ ext)).2) := by
    intro n
    induction n using Nat.strong_induction_on with
    | _ n ih =>
    intro buf ext hn
    cases hdec : decode buf with
    | error e =>
      rw [drain_error hdec, drain_error ((decode_append ext buf).1 e hdec)]
    | ok p =>
      rcases p with ⟨mo, rest⟩
      rcases mo with _ | m
      · rw [drain_none hdec]
        have hq : decode (buf ++ ext) = decode (rest ++ ext) :=
          (decode_append ext buf).2.1 rest hdec
        simpa using drain_congr hq
      · have hlt := decode_some_length buf m rest hdec
        rw [drain_some hdec, drain_some ((decode_append ext buf).2.2 m rest hdec)]
        have hrec := ih rest.length (by omega) rest ext le_rfl
        rw [hrec]
        cases hd2 : drain rest with
        | mk ms out =>
          cases out with
          | error e => simp
          | ok r2 => simp
  intro buf ext
  exact H buf.length buf ext le_rfl

lemma drain_ok_quiescent : ∀ (buf : List Nat) (ms : List Message) (rest : List Nat),
    drain buf = (ms, .ok rest) → decode rest = .ok (none, rest) := by
  have H : ∀ (n : Nat) (buf : List Nat), buf.length ≤ n →
      ∀ (ms : List Message) (rest : List Nat),
      drain buf = (ms, .ok rest) → decode rest = .ok (none, rest) := by
    intro n
    induction n using Nat.strong_induction_on with
    | _ n ih =>
    intro buf hn ms rest h
    cases hdec : decode buf with
    | error e => rw [drain_error hdec] at h; simp at h
    | ok p =>
      rcases p with ⟨mo, r⟩
      rcases mo with _ | m
      · rw [drain_none hdec] at h
        simp only [Prod.mk.injEq, Except.ok.injEq] at h
        rw [← h.2]
        exact decode_none_quiescent buf r hdec
      · have hlt := decode_some_length buf m r hdec
        rw [drain_some hdec] at h
        simp only [Prod.mk.injEq] at h
        cases hd2 : drain r with
        | mk ms2 out =>
          rw [hd2] at h
          simp only at h
          exact ih r.length (by omega) r le_rfl ms2 rest (by rw [hd2, h.2])
  intro buf ms rest h
  exact H buf.length buf le_rfl ms rest h

lemma processChunks_eq_drain : ∀ (chunks : List (List Nat)) (st : List Nat),
    decode st = .ok (none, st) →
    processChunks st chunks = drain (st ++ chunks.flatten) := by
  intro chunks
  induction chunks with
  | nil =>
    intro st hq
    simp only [processChunks, List.flatten_nil, List.append_nil]
    rw [drain_none hq]
  | cons c cs ih =>
    intro st hq
    simp only [processChunks, List.flatten_cons]
    have hassoc : st ++ (c ++ cs.flatten) = (st ++ c) ++ cs.flatten := by
      rw [List.append_assoc]
    rw [hassoc, drain_append (st ++ c) cs.flatten]
    cases hd : drain (st ++ c) with
    | mk ms out =>
      cases out with
      | error e => rfl
      | ok rest =>
        have hrq : decode rest = .ok (none, rest) :=
          drain_ok_quiescent (st ++ c) ms rest hd
        have := ih rest hrq
        simp only [this]

lemma decode_keepalive_replicate : ∀ (k : Nat),
    decode (List.replicate (4 * k) 0) = .ok (none, []) := by
  intro k
  induction k with
  | zero => rfl
  | succ n ih =>
    have h4 : 4 * (n + 1) = ((((4 * n) + 1) + 1) + 1) + 1 := by ring
    rw [h4]
    simp only [List.replicate_succ]
    rw [decode_keepalive 0 0 0 0 (List.replicate (4 * n) 0) rfl]
    exact ih

lemma nblocks_pos {S : Nat} (hS : 0 < S) : 0 < nblocks S := by
  have : nblocks S = (S + 16383) / 16384 := rfl
  rw [this]
  omega

lemma blockSizes_eq {S : Nat} (hS : 0 < S) :
    blockSizes S = List.replicate (nblocks S - 1) PIECE_BLOCK_MAX
      ++ [if S % PIECE_BLOCK_MAX = 0 then PIECE_BLOCK_MAX else S % PIECE_BLOCK_MAX] := by
  have hpos := nblocks_pos hS
  have hrange : List.range (nblocks S) = List.range (nblocks S - 1) ++ [nblocks S - 1] := by
    have h1 : nblocks S = (nblocks S - 1) + 1 := by omega
    conv_lhs => rw [h1, List.range_succ]
  unfold blockSizes
  rw [hrange, List.map_append]
  congr 1
  · rw [List.eq_replicate_iff]
    refine ⟨by simp, ?_⟩
    intro b hb
    simp only [List.mem_map, List.mem_range] at hb
    obtain ⟨j, hj, hbj⟩ := hb
    rw [← hbj]
    unfold blockSize
    rw [if_neg (by omega)]
  · simp only [List.map_cons, List.map_nil]
    unfold blockSize
    rw [if_pos rfl]

lemma blockSizes_sum {S : Nat} (hS : 0 < S) : (blockSizes S).sum = S := by
  rw [blockSizes_eq hS]
  have hnb : nblocks S = (S + 16383) / 16384 := rfl
  have hbm : PIECE_BLOCK_MAX = 16384 := rfl
  rw [List.sum_append, List.sum_replicate, smul_eq_mul]
  simp only [List.sum_cons, List.sum_nil, add_zero, hbm]
  split
  · omega
  · omega

lemma splitOnce_append (c : Char) : ∀ (pre post : List Char), c ∉ pre →
    splitOnce c (pre ++ c :: post) = some (pre, post) := by
  intro pre
  induction pre with
  | nil =>
    intro post _
    simp [splitOnce]
  | cons a t ih =>
    intro post hmem
    have ha : a ≠ c := by
      intro hac
      exact hmem (by simp [hac])
    have ht : c ∉ t := fun hc => hmem (by simp [hc])
    simp only [List.cons_append, splitOnce, if_neg ha, List.append_eq, ih post ht]

lemma splitOnce_not_mem (c : Char) : ∀ (s : List Char), c ∉ s → splitOnce c s = none := by
  intro s
  induction s with
  | nil => intro _; rfl
  | cons a t ih =>
    intro hmem
    have ha : a ≠ c := by
      intro hac
      exact hmem (by simp [hac])
    have ht : c ∉ t := fun hc => hmem (by simp [hc])
    simp only [splitOnce, if_neg ha, ih ht]

lemma splitOnce_sound (c : Char) : ∀ (s p q : List Char),
    splitOnce c s = some (p, q) → s = p ++ c :: q ∧ c ∉ p := by
  intro s
  induction s with
  | nil => intro p q h; simp [splitOnce] at h
  | cons a t ih =>
    intro p q h
    by_cases hac : a = c
    · simp only [splitOnce, if_pos hac] at h
      simp only [Option.some.injEq, Prod.mk.injEq] at h
      obtain ⟨hp, hq⟩ := h
      subst hac
      subst hp
      subst hq
      exact ⟨rfl, by simp⟩
    · simp only [splitOnce, if_neg hac] at h
      cases hsp : splitOnce c t with
      | none => rw [hsp] at h; simp at h
      | some pq =>
        rcases pq with ⟨p2, q2⟩
        rw [hsp] at h
        simp only [Option.some.injEq, Prod.mk.injEq] at h
        obtain ⟨hp, hq⟩ := h
        have := ih p2 q2 hsp
        refine ⟨?_, ?_⟩
        · rw [← hp, ← hq]
          simp only [List.cons_append, List.cons.injEq, true_and]
          exact this.1
        · rw [← hp]
          intro hmem
          rcases List.mem_cons.mp hmem with h1 | h2
          · exact hac h1.symm
          · exact this.2 h2

lemma be32_u32be {n : Nat} (h : n < 2 ^ 32) :
    be32 (n / 2 ^ 24 % 256) (n / 2 ^ 16 % 256) (n / 2 ^ 8 % 256) (n % 256) = n := by
  unfold be32
  omega

lemma tagOfByte_toByte (t : MessageTag) : tagOfByte t.toByte = some t := by
  cases t <;> rfl

lemma Message.len_mk (t : MessageTag) (p : List Nat) :
    Message.len ⟨t, p⟩ = 1 + p.length := rfl

lemma encode_ok_inv {m : Message} {frame : List Nat} (h : encode m = .ok frame) :
    m.len ≤ ENCODE_MAX ∧ frame = u32be m.len ++ m.tag.toByte :: m.payload := by
  unfold encode at h
  by_cases hc : ENCODE_MAX < m.len
  · rw [if_pos hc] at h; simp at h
  · rw [if_neg hc] at h
    simp only [Except.ok.injEq] at h
    exact ⟨by omega, h.symm⟩

lemma decode_encoded_frame {m : Message} (hle : m.len ≤ DECODE_MAX) :
    decode (u32be m.len ++ m.tag.toByte :: m.payload) = .ok (some m, []) := by
  obtain ⟨tag, payload⟩ := m
  have hlen : (Message.mk tag payload).len = 1 + payload.length := rfl
  have hmax : DECODE_MAX = 65536 := rfl
  have hlt : (Message.mk tag payload).len < 2 ^ 32 := by omega
  have hbe := be32_u32be hlt
  simp only [u32be, List.cons_append, List.nil_append]
  have h0 : be32 ((Message.mk tag payload).len / 2 ^ 24 % 256)
      ((Message.mk tag payload).len / 2 ^ 16 % 256)
      ((Message.mk tag payload).len / 2 ^ 8 % 256)
      ((Message.mk tag payload).len % 256) ≠ 0 := by
    rw [hbe]; omega
  have h1 : ¬ DECODE_MAX < be32 ((Message.mk tag payload).len / 2 ^ 24 % 256)
      ((Message.mk tag payload).len / 2 ^ 16 % 256)
      ((Message.mk tag payload).len / 2 ^ 8 % 256)
      ((Message.mk tag payload).len % 256) := by
    rw [hbe]; omega
  have h2 : ¬ (tag.toByte :: payload).length
      < be32 ((Message.mk tag payload).len / 2 ^ 24 % 256)
      ((Message.mk tag payload).len / 2 ^ 16 % 256)
      ((Message.mk tag payload).len / 2 ^ 8 % 256)
      ((Message.mk tag payload).len % 256) := by
    rw [hbe]
    simp only [List.length_cons]
    omega
  have htag : tagOfByte ((tag.toByte :: payload).headD 0) = some tag := by
    simp only [List.headD_cons]
    exact tagOfByte_toByte tag
  rw [decode_frame_some _ _ _ _ _ tag h0 h1 h2 htag]
  rw [hbe]
  have hdrop1 : (tag.toByte :: payload).drop 1 = payload := rfl
  have htake : payload.take ((Message.mk tag payload).len - 1) = payload := by
    rw [hlen]
    simp
  have hdropL : (tag.toByte :: payload).drop ((Message.mk tag payload).len) = [] := by
    rw [hlen, Nat.add_comm, List.drop_succ_cons, List.drop_length]
  rw [hdrop1, htake, hdropL]

lemma checkHandshake_not_ok {h : Handshake} {localHash : List Nat}
    (hne : checkHandshake h localHash ≠ .ok ()) :
    checkHandshake h localHash = .error .panicked := by
  unfold checkHandshake at hne ⊢
  by_cases h1 : h.length ≠ 19
  · rw [if_pos h1]
  · rw [if_neg h1] at hne ⊢
    by_cases h2 : h.bittorrent ≠ protocolBytes
    · rw [if_pos h2]
    · rw [if_neg h2] at hne ⊢
      by_cases h3 : h.info_hash ≠ localHash
      · rw [if_pos h3]
      · rw [if_neg h3] at hne
        exact absurd rfl hne

lemma intDigits_of_ne {c0 : Char} (t : List Char) (h : c0 ≠ '-') :
    intDigits (c0 :: t) = c0 :: t := by
  unfold intDigits
  split
  · rename_i heq
    injection heq with h1 _
    exact absurd h1 h
  · rfl

/-- C5: for every buffered input of at least four bytes whose declared
frame length exceeds the 64 KiB ceiling, `MessageFramer::decode` returns
the fatal oversize error, regardless of how many further bytes are
buffered or whether the full frame is present. -/
theorem C5_oversize_frame_fatal :
    DECODE_MAX = 65536 ∧
    ∀ (a b c d : Nat) (rest : List Nat), DECODE_MAX < be32 a b c d →
      decode (a :: b :: c :: d :: rest) = .error (.tooLarge (be32 a b c d)) := by
  refine ⟨rfl, ?_⟩
  intro a b c d rest h
  have h0 : be32 a b c d ≠ 0 := by
    have : DECODE_MAX = 65536 := rfl
    omega
  exact decode_toolarge a b c d rest h0 h

/-- C5 witness: a declared length of `0xff000000` with no further bytes
buffered is rejected at once. -/
theorem C5_oversize_frame_fatal_witness :
    decode [255, 0, 0, 0] = .error (.tooLarge (be32 255 0 0 0)) :=
  C5_oversize_frame_fatal.2 255 0 0 0 [] (by decide)

/-- C9: the frame decoder terminates on every finite buffer; its only
self-recursion is the keep-alive case, which consumes exactly four bytes,
so any buffer consisting of keep-alive frames is fully discarded without
producing a message, and every decoded message strictly shrinks the
buffer. -/
theorem C9_keepalive_recursion_terminates :
    (∀ k : Nat, decode (List.replicate (4 * k) 0) = .ok (none, [])) ∧
    (∀ (a b c d : Nat) (rest : List Nat), be32 a b c d = 0 →
      decode (a :: b :: c :: d :: rest) = decode rest ∧
      rest.length + 4 = (a :: b :: c :: d :: rest).length) ∧
    (∀ (src : List Nat) (m : Message) (rest : List Nat),
      decode src = .ok (some m, rest) → rest.length < src.length) := by
  refine ⟨decode_keepalive_replicate, ?_, decode_some_length⟩
  intro a b c d rest h
  exact ⟨decode_keepalive a b c d rest h, by simp⟩

/-- C9 witness: two keep-alive frames are discarded, the keep-alive step
consumes four bytes, and decoding a one-byte frame shrinks the buffer. -/
theorem C9_keepalive_recursion_terminates_witness :
    decode (List.replicate (4 * 2) 0) = .ok (none, []) ∧
    decode [0, 0, 0, 0, 9] = decode [9] ∧
    ([] : List Nat).length < [0, 0, 0, 1, 2].length :=
  ⟨C9_keepalive_recursion_terminates.1 2,
    (C9_keepalive_recursion_terminates.2.1 0 0 0 0 [9] (by decide)).1,
    C9_keepalive_recursion_terminates.2.2 [0, 0, 0, 1, 2] ⟨.interested, []⟩ [] (by decide)⟩

/-- C2 counterexample: with exactly four bytes buffered the declared
length 65537 is known and the frame is incomplete (4 buffered < 4 + 65537),
yet the decoder returns the fatal oversize error, not the
"need more data" signal the claim requires for every known length. -/
theorem C2_decode_counterexample : decode [0, 1, 0, 1] = .error (.tooLarge 65537) := rfl

/-- C2 (amended): the decoder returns "need more data" and leaves the
buffer unconsumed when fewer than four bytes are buffered, or when the
declared length is nonzero, within the 64 KiB ceiling, and the full frame
has not arrived; and feeding any chunking of a byte sequence through the
drive loop yields exactly the messages, leftover and error of feeding the
whole sequence at once. -/
theorem C2_need_more_data_and_incremental :
    (∀ src : List Nat, src.length < 4 → decode src = .ok (none, src)) ∧
    (∀ (a b c d : Nat) (rest : List Nat), be32 a b c d ≠ 0 →
      be32 a b c d ≤ DECODE_MAX → rest.length < be32 a b c d →
      decode (a :: b :: c :: d :: rest) = .ok (none, a :: b :: c :: d :: rest)) ∧
    (∀ chunks : List (List Nat), processChunks [] chunks = drain chunks.flatten) := by
  refine ⟨decode_short, ?_, ?_⟩
  · intro a b c d rest h0 h1 h2
    exact decode_incomplete a b c d rest h0 (by omega) h2
  · intro chunks
    have := processChunks_eq_drain chunks [] rfl
    simpa using this

/-- C2 witness: a three-byte buffer and a half-arrived five-byte frame
both yield "need more data" with the buffer intact; chunked feeding of two
frames split at arbitrary positions equals feeding them whole. -/
theorem C2_need_more_data_and_incremental_witness :
    decode [9, 9] = .ok (none, [9, 9]) ∧
    decode [0, 0, 0, 5, 1] = .ok (none, [0, 0, 0, 5, 1]) ∧
    processChunks [] [[0], [0, 0, 1, 2, 0, 0], [0, 2, 5, 1]]
      = drain [0, 0, 0, 1, 2, 0, 0, 0, 2, 5, 1] :=
  ⟨C2_need_more_data_and_incremental.1 [9, 9] (by decide),
    C2_need_more_data_and_incremental.2.1 0 0 0 5 [1] (by decide) (by decide) (by decide),
    by
      have := C2_need_more_data_and_incremental.2.2 [[0], [0, 0, 1, 2, 0, 0], [0, 2, 5, 1]]
      simpa using this⟩

/-- C10: the encoder accepts any message whose tag-plus-payload length is
at most the 8 MiB encode ceiling and declares exactly that length, while
the decoder rejects any declared length above the 64 KiB decode ceiling;
hence a message with combined length in (64 KiB, 8 MiB] encodes
successfully but its own frame fails to decode, and the encode-then-decode
round trip holds for combined lengths at most 64 KiB. -/
theorem C10_asymmetric_ceilings :
    ENCODE_MAX = 8 * 1024 * 1024 ∧ DECODE_MAX = 65536 ∧
    (∀ m : Message, m.len ≤ ENCODE_MAX →
      encode m = .ok (u32be m.len ++ m.tag.toByte :: m.payload)) ∧
    (∀ (m : Message) (frame : List Nat), DECODE_MAX < m.len →
      encode m = .ok frame → decode frame = .error (.tooLarge m.len)) ∧
    (∀ (m : Message) (frame : List Nat), m.len ≤ DECODE_MAX →
      encode m = .ok frame → decode frame = .ok (some m, [])) := by
  refine ⟨rfl, rfl, ?_, ?_, ?_⟩
  · intro m hle
    unfold encode
    rw [if_neg (by omega)]
  · intro m frame hgt henc
    obtain ⟨hle, hframe⟩ := encode_ok_inv henc
    subst hframe
    have hmax : ENCODE_MAX = 8 * 1024 * 1024 := rfl
    have hlt : m.len < 2 ^ 32 := by omega
    have hbe := be32_u32be hlt
    simp only [u32be, List.cons_append, List.nil_append]
    rw [decode_toolarge _ _ _ _ _ (by rw [hbe]; omega) (by rw [hbe]; omega), hbe]
  · intro m frame hle henc
    obtain ⟨-, hframe⟩ := encode_ok_inv henc
    subst hframe
    exact decode_encoded_frame hle

/-- C10 witness: a 65537-byte message encodes but its frame is rejected by
the decoder; a 2-byte message round-trips. -/
theorem C10_asymmetric_ceilings_witness :
    encode ⟨.piece, List.replicate 65536 0⟩
      = .ok (u32be (Message.len ⟨.piece, List.replicate 65536 0⟩)
          ++ MessageTag.piece.toByte :: List.replicate 65536 0) ∧
    decode (u32be (Message.len ⟨.piece, List.replicate 65536 0⟩)
        ++ MessageTag.piece.toByte :: List.replicate 65536 0)
      = .error (.tooLarge (Message.len ⟨.piece, List.replicate 65536 0⟩)) ∧
    decode (u32be (Message.len ⟨.unchoke, [7]⟩) ++ MessageTag.unchoke.toByte :: [7])
      = .ok (some ⟨.unchoke, [7]⟩, []) := by
  have hlen : (Message.mk .piece (List.replicate 65536 0)).len = 65537 := by
    rw [Message.len_mk, List.length_replicate]
  have hbig : (Message.mk .piece (List.replicate 65536 0)).len ≤ ENCODE_MAX := by
    rw [hlen]
    decide
  have hgt : DECODE_MAX < (Message.mk .piece (List.replicate 65536 0)).len := by
    rw [hlen]
    decide
  have henc := C10_asymmetric_ceilings.2.2.1 ⟨.piece, List.replicate 65536 0⟩ hbig
  refine ⟨henc, ?_, ?_⟩
  · exact C10_asymmetric_ceilings.2.2.2.1 ⟨.piece, List.replicate 65536 0⟩ _ hgt henc
  · have hsmall : (Message.mk .unchoke [7]).len ≤ DECODE_MAX := by decide
    have henc2 := C10_asymmetric_ceilings.2.2.1 ⟨.unchoke, [7]⟩ (by decide)
    exact C10_asymmetric_ceilings.2.2.2.2 ⟨.unchoke, [7]⟩ _ hsmall henc2

/-- C1: piece sizes follow the last-piece-remainder rule, a piece of size
S is split into ceil(S / 16384) blocks whose offsets increase and whose
sizes are 16384 except the final one (the remainder of S, or a full block
when that remainder is zero, so that the sizes sum to S); concretely the
pieces of a 1000-byte torrent with 256-byte pieces have sizes
256, 256, 256, 232, and the last piece of a 512-byte torrent with
256-byte pieces has size 256, not 0. -/
theorem C1_piece_and_block_sizing :
    (∀ L P n i : Nat, 0 < P → i < n →
      pieceSize L P n i = if i = n - 1 then (if L % P = 0 then P else L % P) else P) ∧
    (∀ S : Nat, 0 < S →
      (blockSizes S).length = (S + 16384 - 1) / 16384 ∧
      blockSizes S = List.replicate (nblocks S - 1) 16384
        ++ [if S % 16384 = 0 then 16384 else S % 16384] ∧
      (blockSizes S).sum = S) ∧
    (∀ S : Nat,
      ((List.range (nblocks S)).map (fun j => j * PIECE_BLOCK_MAX)).Pairwise (· < ·)) ∧
    (List.range 4).map (pieceSize 1000 256 4) = [256, 256, 256, 232] ∧
    pieceSize 512 256 2 1 = 256 := by
  refine ⟨?_, ?_, ?_, by decide, by decide⟩
  · intro L P n i _ _
    rfl
  · intro S hS
    have hbm : PIECE_BLOCK_MAX = 16384 := rfl
    refine ⟨?_, ?_, blockSizes_sum hS⟩
    · simp only [blockSizes, List.length_map, List.length_range, nblocks, hbm]
      omega
    · have := blockSizes_eq hS
      rw [hbm] at this
      exact this
  · intro S
    rw [List.pairwise_map]
    refine (List.pairwise_lt_range (nblocks S)).imp ?_
    intro a b hab
    have hbm : 0 < PIECE_BLOCK_MAX := by decide
    exact (Nat.mul_lt_mul_right hbm).mpr hab

/-- C1 witness: the last-piece rule at index 3 of the 1000/256 torrent,
and the block split of a 40000-byte piece. -/
theorem C1_piece_and_block_sizing_witness :
    pieceSize 1000 256 4 3
      = (if 3 = 4 - 1 then (if 1000 % 256 = 0 then 256 else 1000 % 256) else 256) ∧
    (blockSizes 40000).sum = 40000 :=
  ⟨C1_piece_and_block_sizing.1 1000 256 4 3 (by decide) (by decide),
    (C1_piece_and_block_sizing.2.1 40000 (by decide)).2.2⟩

/-- C6: `Handshake::new` fills in the length byte 19, the protocol-name
literal, eight zero reserved bytes and the given hashes; the session's
post-round-trip check passes exactly when the echoed length byte is 19,
the protocol name matches and the echoed info-hash equals the locally
computed one, and on any mismatch the download session aborts without
sending a single block request. -/
theorem C6_handshake_construction_and_validation :
    (∀ ih pid : List Nat,
      (Handshake.new ih pid).length = 19 ∧
      (Handshake.new ih pid).bittorrent = protocolBytes ∧
      (Handshake.new ih pid).reserved = List.replicate 8 0 ∧
      (Handshake.new ih pid).info_hash = ih ∧
      (Handshake.new ih pid).peer_id = pid) ∧
    (∀ (h : Handshake) (localHash : List Nat),
      checkHandshake h localHash = .ok () ↔
        (h.length = 19 ∧ h.bittorrent = protocolBytes ∧ h.info_hash = localHash)) ∧
    (∀ (h : Handshake) (localHash : List Nat) (msgs : List StreamItem)
        (pi L P n : Nat), checkHandshake h localHash ≠ .ok () →
      downloadPieceSession localHash h msgs pi L P n = ([], .error .panicked)) := by
  refine ⟨?_, ?_, ?_⟩
  · intro ih pid
    exact ⟨rfl, rfl, rfl, rfl, rfl⟩
  · intro h localHash
    unfold checkHandshake
    constructor
    · intro hok
      by_cases h1 : h.length ≠ 19
      · rw [if_pos h1] at hok; simp at hok
      · rw [if_neg h1] at hok
        by_cases h2 : h.bittorrent ≠ protocolBytes
        · rw [if_pos h2] at hok; simp at hok
        · rw [if_neg h2] at hok
          by_cases h3 : h.info_hash ≠ localHash
          · rw [if_pos h3] at hok; simp at hok
          · push_neg at h1 h2 h3
            exact ⟨h1, h2, h3⟩
    · intro ⟨h1, h2, h3⟩
      rw [if_neg (by simp [h1]), if_neg (by simp [h2]), if_neg (by simp [h3])]
  · intro h localHash msgs pi L P n hne
    have hchk := checkHandshake_not_ok hne
    unfold downloadPieceSession
    by_cases hpi : n ≤ pi
    · rw [if_pos hpi]
    · rw [if_neg hpi, hchk]

/-- C6 witness: the constructed record passes the check against its own
info-hash; a wrong echoed info-hash makes the session abort with no
requests sent. -/
theorem C6_handshake_construction_and_validation_witness :
    (checkHandshake (Handshake.new [1, 2, 3] [9]) [1, 2, 3] = .ok () ↔
      ((Handshake.new [1, 2, 3] [9]).length = 19 ∧
        (Handshake.new [1, 2, 3] [9]).bittorrent = protocolBytes ∧
        (Handshake.new [1, 2, 3] [9]).info_hash = [1, 2, 3])) ∧
    downloadPieceSession [7] (Handshake.new [8] [1])
      [.msg ⟨.bitfield, [255]⟩, .msg ⟨.unchoke, []⟩,
        .msg ⟨.piece, [0, 0, 0, 0, 0, 0, 0, 0, 9]⟩] 0 1 1 1
      = ([], .error .panicked) :=
  ⟨C6_handshake_construction_and_validation.2.1 (Handshake.new [1, 2, 3] [9]) [1, 2, 3],
    C6_handshake_construction_and_validation.2.2 (Handshake.new [8] [1]) [7] _ 0 1 1 1
      (by decide)⟩

/-- C7 counterexample: a `Piece` reply whose index field is 1 while piece
0 was requested makes the block loop abort via an assertion failure
(`Abort.panicked`, modelling `assert_eq!`), not via the explicit error
result (`Abort.failure`, modelling a `?`-propagated error) that the claim
asserts for validation mismatches. -/
theorem C7_counterexample :
    downloadBlocks 0 1 [0] [.msg ⟨.piece, [0, 0, 0, 1, 0, 0, 0, 0, 55]⟩] []
      = ([(0, 0, 1)], .error .panicked) := by decide

/-- C7 (amended): the session validates the reply index, begin offset and
block length against the request; any mismatch aborts the whole download
at once, salvaging no partial-piece data, but it does so through an
assertion failure (panic), while stream-level decode errors in the loop
do surface as explicit error results. -/
theorem C7_piece_response_validation :
    (∀ (pieceIdx pieceSz i : Nat) (restIdxs : List Nat) (m : Message)
        (restMsgs : List StreamItem) (acc : List Nat),
      m.tag = MessageTag.piece → 8 ≤ m.payload.length →
      (be32 (m.payload.getD 0 0) (m.payload.getD 1 0)
          (m.payload.getD 2 0) (m.payload.getD 3 0) ≠ pieceIdx ∨
        be32 (m.payload.getD 4 0) (m.payload.getD 5 0)
          (m.payload.getD 6 0) (m.payload.getD 7 0) ≠ i * PIECE_BLOCK_MAX ∨
        (m.payload.drop 8).length ≠ blockSize pieceSz i) →
      downloadBlocks pieceIdx pieceSz (i :: restIdxs) (.msg m :: restMsgs) acc
        = ([(pieceIdx % 2 ^ 32, i * PIECE_BLOCK_MAX % 2 ^ 32,
            blockSize pieceSz i % 2 ^ 32)], .error .panicked)) ∧
    (∀ (pieceIdx pieceSz i : Nat) (restIdxs : List Nat)
        (restMsgs : List StreamItem) (acc : List Nat),
      downloadBlocks pieceIdx pieceSz (i :: restIdxs) (.ioErr :: restMsgs) acc
        = ([(pieceIdx % 2 ^ 32, i * PIECE_BLOCK_MAX % 2 ^ 32,
            blockSize pieceSz i % 2 ^ 32)], .error .failure)) := by
  constructor
  · intro pieceIdx pieceSz i restIdxs m restMsgs acc htag hlen hmis
    simp only [downloadBlocks]
    rw [if_neg (by simp [htag]), if_neg (by omega), if_neg (by omega)]
    by_cases h1 : be32 (m.payload.getD 0 0) (m.payload.getD 1 0)
        (m.payload.getD 2 0) (m.payload.getD 3 0) ≠ pieceIdx
    · rw [if_pos h1]
    · rw [if_neg h1]
      by_cases h2 : be32 (m.payload.getD 4 0) (m.payload.getD 5 0)
          (m.payload.getD 6 0) (m.payload.getD 7 0) ≠ i * PIECE_BLOCK_MAX
      · rw [if_pos h2]
      · rw [if_neg h2]
        have h3 : (m.payload.drop 8).length ≠ blockSize pieceSz i := by
          rcases hmis with h | h | h
          · exact absurd h h1
          · exact absurd h h2
          · exact h
        rw [if_pos h3]
  · intro pieceIdx pieceSz i restIdxs restMsgs acc
    rfl

/-- C7 witness: a reply with the wrong index aborts with a panic and no
salvaged data; a stream decode error surfaces as an explicit result. -/
theorem C7_piece_response_validation_witness :
    downloadBlocks 3 1 [0] [.msg ⟨.piece, [0, 0, 0, 1, 0, 0, 0, 0, 55]⟩] []
      = ([(3, 0, 1)], .error .panicked) ∧
    downloadBlocks 0 1 [0] [.ioErr] [] = ([(0, 0, 1)], .error .failure) := by
  constructor
  · have h := C7_piece_response_validation.1 3 1 0 []
      ⟨.piece, [0, 0, 0, 1, 0, 0, 0, 0, 55]⟩ [] [] rfl (by decide)
      (Or.inl (by decide))
    simpa using h
  · exact C7_piece_response_validation.2 0 1 0 [] [] []

/-- C4 counterexample: `i00e` has the digit string `00`, a leading zero
that is not the literal `0`, yet the decoder accepts it as `Integer(0)`
because the leading-zero rejection in src/de.rs line 116 only fires when
the parsed value is nonzero. -/
theorem C4_counterexample : decode_bencoded_int ("i00e".toList) = .ok (.int 0, []) := rfl

/-- C4 (amended): integer decoding rejects an empty digit string, every
`-0` form, every nonzero value whose digit string has a leading zero, any
digit string the `i64` parser rejects, and a missing terminator `e`; but
an all-zero digit string such as `00` is accepted as `Integer(0)` because
the leading-zero check applies only to nonzero parsed values.  In
particular `i-0e`, `i03e`, `i01e` fail while `i0e` and `i00e` decode to
`Integer(0)`. -/
theorem C4_integer_validation :
    decode_bencoded_int ("i-0e".toList) = .error .negZero ∧
    decode_bencoded_int ("i03e".toList) = .error .leadingZero ∧
    decode_bencoded_int ("i01e".toList) = .error .leadingZero ∧
    decode_bencoded_int ("i0e".toList) = .ok (.int 0, []) ∧
    decode_bencoded_int ("i00e".toList) = .ok (.int 0, []) ∧
    decode_bencoded_int ("ie".toList) = .error .intParse ∧
    (∀ (ds rest : List Char) (v : Int), ('e' : Char) ∉ ds →
      parseI64 ds = some v → v ≠ 0 → (intDigits ds).head? = some '0' →
      ∃ e, decode_bencoded_int ('i' :: ds ++ 'e' :: rest) = .error e) ∧
    (∀ ds : List Char, ('e' : Char) ∉ ds →
      decode_bencoded_int ('i' :: ds) = .error .noTerminator) := by
  refine ⟨rfl, rfl, rfl, rfl, rfl, rfl, ?_, ?_⟩
  · intro ds rest v hnotin hparse hv hzero
    rcases ds with _ | ⟨c0, t⟩
    · simp [intDigits] at hzero
    by_cases hneg : c0 = '-'
    · subst hneg
      rcases t with _ | ⟨c1, t2⟩
      · simp [intDigits] at hzero
      have hc1 : c1 = '0' := by
        simp only [intDigits, List.head?_cons, Option.some.injEq] at hzero
        exact hzero
      subst hc1
      refine ⟨.negZero, ?_⟩
      have hsp : splitOnce 'e' ('-' :: '0' :: (t2 ++ 'e' :: rest))
          = some ('-' :: '0' :: t2, rest) := by
        simpa using splitOnce_append 'e' ('-' :: '0' :: t2) rest hnotin
      simp only [decode_bencoded_int, List.cons_append, hsp]
      rfl
    · have hdig : intDigits (c0 :: t) = c0 :: t := intDigits_of_ne t hneg
      rw [hdig] at hzero
      refine ⟨.leadingZero, ?_⟩
      have hsp : splitOnce 'e' (c0 :: (t ++ 'e' :: rest)) = some (c0 :: t, rest) := by
        simpa using splitOnce_append 'e' (c0 :: t) rest hnotin
      simp only [decode_bencoded_int, List.cons_append, hsp, hparse]
      have htake : ¬ (c0 :: t).take 2 = ['-', '0'] := by
        rcases t with _ | ⟨c1, t2⟩ <;> simp [hneg]
      rw [if_neg htake]
      rw [if_pos ⟨by rw [hdig]; exact hzero, hv⟩]
  · intro ds hnotin
    simp only [decode_bencoded_int, splitOnce_not_mem 'e' ds hnotin]

/-- C4 witness: the general leading-zero rejection applied to `i03e`. -/
theorem C4_integer_validation_witness :
    ∃ e, decode_bencoded_int ('i' :: ['0', '3'] ++ 'e' :: []) = .error e :=
  C4_integer_validation.2.2.2.2.2.2.1 ['0', '3'] [] 3 (by decide) (by decide)
    (by decide) (by decide)

/-- C8: byte-string decoding `<len>:<bytes>` succeeds exactly when the
part before the first colon parses as a non-negative integer `len` and at
least `len` characters follow the colon, returning the `len`-character
string and the remainder; `5:hello` decodes to `hello` with nothing left,
while `5:hi` fails because the declared length exceeds the available
bytes. -/
theorem C8_string_decoding :
    (∀ (pre post : List Char) (len : Nat), (':' : Char) ∉ pre →
      parseUsize pre = some len → len ≤ post.length →
      decode_bencoded_string (pre ++ ':' :: post)
        = .ok (.bytes (post.take len), post.drop len)) ∧
    (∀ (pre post : List Char) (len : Nat), (':' : Char) ∉ pre →
      parseUsize pre = some len → post.length < len →
      decode_bencoded_string (pre ++ ':' :: post) = .error .lenOverflow) ∧
    (∀ pre post : List Char, (':' : Char) ∉ pre → parseUsize pre = none →
      decode_bencoded_string (pre ++ ':' :: post) = .error .lenParse) ∧
    (∀ s : List Char, (':' : Char) ∉ s →
      decode_bencoded_string s = .error .noColon) ∧
    (∀ (s rest : List Char) (v : BValue),
      decode_bencoded_string s = .ok (v, rest) →
      ∃ pre post len, s = pre ++ ':' :: post ∧ (':' : Char) ∉ pre ∧
        parseUsize pre = some len ∧ len ≤ post.length ∧
        v = .bytes (post.take len) ∧ rest = post.drop len) ∧
    decode_bencoded_string ("5:hello".toList) = .ok (.bytes ("hello".toList), []) ∧
    decode_bencoded_string ("5:hi".toList) = .error .lenOverflow := by
  refine ⟨?_, ?_, ?_, ?_, ?_, rfl, rfl⟩
  · intro pre post len hnotin hparse hle
    simp only [decode_bencoded_string, splitOnce_append ':' pre post hnotin, hparse]
    rw [if_neg (by omega)]
  · intro pre post len hnotin hparse hlt
    simp only [decode_bencoded_string, splitOnce_append ':' pre post hnotin, hparse]
    rw [if_pos hlt]
  · intro pre post hnotin hparse
    simp only [decode_bencoded_string, splitOnce_append ':' pre post hnotin, hparse]
  · intro s hnotin
    simp only [decode_bencoded_string, splitOnce_not_mem ':' s hnotin]
  · intro s rest v h
    unfold decode_bencoded_string at h
    cases hsp : splitOnce ':' s with
    | none => rw [hsp] at h; simp at h
    | some pq =>
      rcases pq with ⟨pre, post⟩
      rw [hsp] at h
      simp only at h
      obtain ⟨hs, hpre⟩ := splitOnce_sound ':' s pre post hsp
      cases hpu : parseUsize pre with
      | none => rw [hpu] at h; simp at h
      | some len =>
        rw [hpu] at h
        simp only at h
        by_cases hlt : post.length < len
        · rw [if_pos hlt] at h; simp at h
        · rw [if_neg hlt] at h
          simp only [Except.ok.injEq, Prod.mk.injEq] at h
          exact ⟨pre, post, len, hs, hpre, hpu, by omega, h.1.symm, h.2.symm⟩

/-- C8 witness: the success rule applied at `5:hello`, and the bounds
rule at `5:hi`. -/
theorem C8_string_decoding_witness :
    decode_bencoded_string (['5'] ++ ':' :: "hello".toList)
      = .ok (.bytes (("hello".toList).take 5), ("hello".toList).drop 5) ∧
    decode_bencoded_string (['5'] ++ ':' :: "hi".toList) = .error .lenOverflow :=
  ⟨C8_string_decoding.1 ['5'] ("hello".toList) 5 (by decide) (by decide) (by decide),
    C8_string_decoding.2.1 ['5'] ("hi".toList) 5 (by decide) (by decide) (by decide)⟩

/-- C3: evaluated at the dictionary input `d4:spam4:eggs3:cow3:mooe`, the
decoder produces the entries in parse order (`spam` before `cow`), and
re-encoding reproduces the original bytes exactly when that order is
preserved — emitting the same entries in any other order changes the
bytes.  The source stores the entries of a decoded dictionary in
`std::collections::HashMap` (src/de.rs lines 45 and 56), which does not
preserve parse order, so the byte-stable re-encoding the specification
requires is not guaranteed by the code. -/
theorem C3_dict_order_roundtrip :
    decode_cmd ("d4:spam4:eggs3:cow3:mooe".toList)
      = .ok (.dict [("spam".toList, .bytes ("eggs".toList)),
          ("cow".toList, .bytes ("moo".toList))]) ∧
    encodeBValue (.dict [("spam".toList, .bytes ("eggs".toList)),
        ("cow".toList, .bytes ("moo".toList))]) = "d4:spam4:eggs3:cow3:mooe".toList ∧
    encodeBValue (.dict [("cow".toList, .bytes ("moo".toList)),
        ("spam".toList, .bytes ("eggs".toList))]) ≠ "d4:spam4:eggs3:cow3:mooe".toList :=
  ⟨rfl, rfl, by decide⟩

end RBit
